import Mathlib

/-!
Shallow embedding of the hannds data pipeline (`import_data.py`) and proofs
about it.  The encoder (`convert`, lines 27–55) turns two-hand note tracks
into a boolean pianoroll tensor; the sampler (`Dataset`, lines 58–107)
serves randomized context windows with derived hand labels.  Times are
modelled as rationals, numpy arrays as total functions together with their
axis lengths, and Python exceptions as an `Except` error type.
-/

namespace Hannds

/-- A note event as consumed by `convert`: `start` and `stop` are the
note's start and end times in seconds (`note.start` / `note.end` in the
source; `end` is a Lean keyword), `pitch` the MIDI pitch. -/
structure Note where
  start : ℚ
  stop : ℚ
  pitch : ℤ
deriving DecidableEq

/-- A hand track: the ordered note list of one `pretty_midi` instrument. -/
abbrev Track := List Note

/-- `samples_per_sec = (1000 / ms_window)` (line 30). -/
def samplesPerSec (ms_window : ℚ) : ℚ := 1000 / ms_window

/-- `midi.get_end_time()` (line 40): the maximum end time over the notes of
all instruments of the file, `0` for a file without notes. -/
def trackEndTime (instruments : List Track) : ℚ :=
  ((instruments.map (fun t => t.map Note.stop)).flatten).foldl max 0

/-- `start = int(math.floor(note.start * samples_per_sec))` (line 50). -/
def noteStartIdx (rate : ℚ) (n : Note) : ℤ := ⌊n.start * rate⌋

/-- `end = int(math.ceil(note.end * samples_per_sec))` (line 51). -/
def noteEndIdx (rate : ℚ) (n : Note) : ℤ := ⌈n.stop * rate⌉

/-- Effective bound of a Python/numpy slice index `i` on an axis of length
`len`: a negative index counts from the end of the axis (clamped below at
`0`), a nonnegative one is clamped above at `len`. -/
def npSliceBound (len : ℕ) (i : ℤ) : ℕ :=
  if i < 0 then ((len : ℤ) + i).toNat else min i.toNat len

/-- Pianoroll contents as a total function `window → hand → key → Bool`;
only indices `w < nWindows`, `h < 2`, `p < 88` correspond to array cells. -/
abbrev TensorF := ℕ → ℕ → ℕ → Bool

/-- One assignment `hands[start:end, hand, note.pitch - 21] = True`
(line 52).  numpy resolves the key index `note.pitch - 21` (legal when in
`[-88, 88)`) modulo 88 and sets every window of the slice `start:end`. -/
def writeNote (rate : ℚ) (nWin : ℕ) (hand : ℕ) (n : Note) (t : TensorF) : TensorF :=
  fun w h p =>
    if npSliceBound nWin (noteStartIdx rate n) ≤ w ∧ w < npSliceBound nWin (noteEndIdx rate n)
        ∧ h = hand ∧ (p : ℤ) = (n.pitch - 21) % 88
    then true
    else t w h p

/-- The inner loop `for note in midi_hand.notes` (lines 49–52). -/
def fillHand (rate : ℚ) (nWin : ℕ) (hand : ℕ) (notes : Track) (t : TensorF) : TensorF :=
  notes.foldl (fun acc n => writeNote rate nWin hand n acc) t

/-- The encoded array `hands` of `convert`: window count and contents. -/
structure Pianoroll where
  nWindows : ℕ
  cell : TensorF

/-- Lines 40–52 of `convert` for one file: size the array by
`n_windows = math.ceil(midi.get_end_time() * samples_per_sec)` and run the
fill loop over hand 0 (`instruments[0]`) and then hand 1
(`instruments[1]`). -/
def encodePianoroll (instruments : List Track) (ms_window : ℚ) : Pianoroll :=
  let rate := samplesPerSec ms_window
  let nWin := (⌈trackEndTime instruments * rate⌉).toNat
  let t0 := instruments.headD []
  let t1 := (instruments.drop 1).headD []
  ⟨nWin, fillHand rate nWin 1 t1 (fillHand rate nWin 0 t0 (fun _ _ _ => false))⟩

/-- The Python exception classes that the embedded code can raise.
`import_data.py` defines no exception class of its own. -/
inductive PyError
  | indexError
  | zeroDivisionError
  | valueError
deriving DecidableEq

/-- The key index `note.pitch - 21` is a legal numpy index on an axis of
length 88; an index outside `[-88, 88)` makes the write raise
`IndexError`. -/
def noteIndexOk (n : Note) : Bool :=
  decide (-88 ≤ n.pitch - 21) && decide (n.pitch - 21 < 88)

/-- Per-file encoding of `convert` (lines 30–52) with its failure modes:
`1000 / ms_window` raises `ZeroDivisionError` when `ms_window = 0`;
`midi.instruments[0], midi.instruments[1]` raises `IndexError` when the
file has fewer than two instruments; `np.zeros` raises `ValueError` when
the computed window count is negative; a key index outside `[-88, 88)`
raises `IndexError`.  (Python raises at the first offending note inside
the fill loop; since the array is discarded when an exception escapes,
checking all notes of the two hands up front is observationally
equivalent.) -/
def convertFile (instruments : List Track) (ms_window : ℚ) : Except PyError Pianoroll :=
  if ms_window = 0 then .error .zeroDivisionError
  else if instruments.length < 2 then .error .indexError
  else if ⌈trackEndTime instruments * samplesPerSec ms_window⌉ < 0 then .error .valueError
  else if (instruments.take 2).all (fun t => t.all noteIndexOk) then
    .ok (encodePianoroll instruments ms_window)
  else .error .indexError

/-- `npy_file = midi_file + '_' + str(ms_window) + 'ms' + '.npy'` (line 32). -/
def npyKey (midi_file : String) (ms_window : ℚ) : String :=
  midi_file ++ "_" ++ toString ms_window ++ "ms" ++ ".npy"

/-- One iteration of `convert`'s file loop (lines 31–55) over an abstract
artifact store `fs` (the filesystem's `.npy` files): encode and save when
`overwrite or not os.path.exists(npy_file)`, otherwise skip.  The first
component records whether the branch that (re-)encodes the file ran. -/
def convertStep (midi : String → List Track) (ms_window : ℚ) (overwrite : Bool)
    (fs : String → Option Pianoroll) (file : String) :
    Bool × Except PyError (String → Option Pianoroll) :=
  let key := npyKey file ms_window
  if overwrite || (fs key).isNone then
    match convertFile (midi file) ms_window with
    | .ok pr => (true, .ok (fun k => if k = key then some pr else fs k))
    | .error e => (true, .error e)
  else (false, .ok fs)

/-- The state of a `Dataset` object: `n_windows_past` and the padded
concatenated array `self.data` of shape `(dataLen, 2, 88)` (lines 59–68),
given by its window count and a total contents function
`window → hand → key`. -/
structure Dataset where
  n_windows_past : ℕ
  dataLen : ℕ
  data : ℕ → ℕ → ℕ → Bool

/-- A value of the float array `batch_y`: `nan` or a small integer. -/
inductive Label
  | nan
  | val (z : ℤ)
deriving DecidableEq

/-- The argument `self.data.shape[0] - self.n_windows_past` of
`random.randrange` (line 81), as a Python integer (it may be ≤ 0). -/
def rangeSize (ds : Dataset) : ℤ := (ds.dataLen : ℤ) - ds.n_windows_past

/-- `random.randrange(n)`: a uniform draw from `0, …, n-1`, modelled as
reducing one value `u` of a raw random stream modulo `n`. -/
def pyRandrange (n : ℕ) (u : ℕ) : ℕ := u % n

/-- The start window drawn for sample `s` (line 81). -/
def drawStart (ds : Dataset) (rng : ℕ → ℕ) (s : ℕ) : ℕ :=
  pyRandrange (rangeSize ds).toNat (rng s)

/-- Python slice `a[start:stop]` of an axis of length `len`, for
nonnegative slice indices: the elements at `min start len ≤ i < min stop len`. -/
def pySlice {α : Type} (len : ℕ) (a : ℕ → α) (start stop : ℕ) : List α :=
  (List.range' (min start len) (min stop len - min start len)).map a

/-- `self.data[start : start + self.n_windows_past + 1, :, :]` (line 83):
the context slice of one sample, one `hand → key` plane per window. -/
def sampleSlice (ds : Dataset) (start : ℕ) : List (ℕ → ℕ → Bool) :=
  pySlice ds.dataLen ds.data start (start + ds.n_windows_past + 1)

/-- `hands[s, -1, hand, :]`: the last window of one sample's slice. -/
def lastWindow (hands : List (ℕ → ℕ → Bool)) : ℕ → ℕ → Bool :=
  hands.getLastD (fun _ _ => false)

/-- `batch_x` restricted to one sample (lines 86–89): per window the
elementwise OR of the two hand planes. -/
def sampleX (hands : List (ℕ → ℕ → Bool)) : List (ℕ → Bool) :=
  hands.map (fun f p => f 0 p || f 1 p)

/-- `batch_y` restricted to one sample (lines 92–105): per key, start from
`nan` (line 102), overwrite with `-1` where hand 0 plays in the last
window (line 103), with `+1` where hand 1 plays (line 104), and finally
with `0` where both hands play (line 105). -/
def sampleY (hands : List (ℕ → ℕ → Bool)) : ℕ → Label := fun p =>
  let h0 := lastWindow hands 0 p
  let h1 := lastWindow hands 1 p
  let y := Label.nan
  let y := if h0 then Label.val (-1) else y
  let y := if h1 then Label.val 1 else y
  let y := if h0 && h1 then Label.val 0 else y
  y

/-- One sample of the batch: its input rows and its label row. -/
def mkSample (ds : Dataset) (rng : ℕ → ℕ) (s : ℕ) : List (ℕ → Bool) × (ℕ → Label) :=
  let hands := sampleSlice ds (drawStart ds rng s)
  (sampleX hands, sampleY hands)

/-- `Dataset.next_batch` (lines 70–107) in state-passing form: the
`Dataset` object is threaded through the sample loop (which only reads
`self.data`), and draw `s` consumes value `s` of the raw random stream.
`random.randrange` raises `ValueError` when its range is empty.  The
masking steps building `batch_x` and `batch_y` are elementwise per sample,
so the batch is the list of per-sample `(input rows, label row)` pairs in
loop order.  The `ValueError` of an empty range surfaces at the first
draw, so a call with `n_samples = 0` never reaches it. -/
def nextBatchSt (ds : Dataset) (n_samples : ℕ) (rng : ℕ → ℕ) :
    Except PyError (List (List (ℕ → Bool) × (ℕ → Label))) × Dataset :=
  if 0 < n_samples ∧ rangeSize ds ≤ 0 then (.error .valueError, ds)
  else
    let step := fun (st : Dataset × List (List (ℕ → Bool) × (ℕ → Label))) (s : ℕ) =>
      (st.1, st.2 ++ [mkSample st.1 rng s])
    let res := (List.range n_samples).foldl step (ds, [])
    (.ok res.2, res.1)

/-- The `(batch_x, batch_y)` value returned by `Dataset.next_batch`. -/
def nextBatch (ds : Dataset) (n_samples : ℕ) (rng : ℕ → ℕ) :
    Except PyError (List (List (ℕ → Bool) × (ℕ → Label))) :=
  (nextBatchSt ds n_samples rng).1

/-- Placeholder sample used with `List.getD` when indexing a batch. -/
def emptySample : List (ℕ → Bool) × (ℕ → Label) := ([], fun _ => Label.nan)

/-! ### Helper lemmas -/

lemma le_foldl_max (l : List ℚ) (b : ℚ) : b ≤ l.foldl max b := by
  induction l generalizing b with
  | nil => exact le_refl b
  | cons a l ih => exact le_trans (le_max_left b a) (ih (max b a))

lemma mem_le_foldl_max (l : List ℚ) : ∀ b a : ℚ, a ∈ l → a ≤ l.foldl max b := by
  induction l with
  | nil => intro b a h; cases h
  | cons c l ih =>
    intro b a h
    rcases List.mem_cons.mp h with rfl | h'
    · exact le_trans (le_max_right b a) (le_foldl_max l (max b a))
    · exact ih (max b c) a h'

lemma trackEndTime_nonneg (instruments : List Track) : 0 ≤ trackEndTime instruments :=
  le_foldl_max _ 0

lemma stop_le_trackEndTime {instruments : List Track} {t : Track} {n : Note}
    (ht : t ∈ instruments) (hn : n ∈ t) : n.stop ≤ trackEndTime instruments := by
  apply mem_le_foldl_max
  apply List.mem_flatten.mpr
  exact ⟨t.map Note.stop, List.mem_map_of_mem _ ht, List.mem_map_of_mem _ hn⟩

lemma npSliceBound_le (len : ℕ) (i : ℤ) : npSliceBound len i ≤ len := by
  unfold npSliceBound
  split <;> omega

/-- For a slice with bounds `0 ≤ a` and `0 ≤ b ≤ len`, membership in the
effective slice is membership in `[a, b)`. -/
lemma npSliceBound_pair_iff {len : ℕ} {a b : ℤ} (ha : 0 ≤ a) (hb : 0 ≤ b)
    (hblen : b ≤ (len : ℤ)) (w : ℕ) :
    (npSliceBound len a ≤ w ∧ w < npSliceBound len b) ↔ (a ≤ (w : ℤ) ∧ (w : ℤ) < b) := by
  unfold npSliceBound
  split
  · omega
  · split <;> omega

/-- Characterization of the fill loop: a cell is true after `fillHand` iff
it was true before or some note of the hand writes it. -/
lemma fillHand_cell (rate : ℚ) (nWin : ℕ) (hand : ℕ) (notes : Track) (t : TensorF)
    (w h p : ℕ) :
    fillHand rate nWin hand notes t w h p = true ↔
      (t w h p = true ∨ ∃ n ∈ notes,
        npSliceBound nWin (noteStartIdx rate n) ≤ w ∧
        w < npSliceBound nWin (noteEndIdx rate n) ∧
        h = hand ∧ (p : ℤ) = (n.pitch - 21) % 88) := by
  induction notes generalizing t with
  | nil => simp [fillHand]
  | cons n notes ih =>
    have step : fillHand rate nWin hand (n :: notes) t =
        fillHand rate nWin hand notes (writeNote rate nWin hand n t) := rfl
    rw [step, ih (writeNote rate nWin hand n t)]
    unfold writeNote
    constructor
    · rintro (h1 | h1)
      · by_cases hc : npSliceBound nWin (noteStartIdx rate n) ≤ w ∧
            w < npSliceBound nWin (noteEndIdx rate n) ∧ h = hand ∧
            (p : ℤ) = (n.pitch - 21) % 88
        · exact Or.inr ⟨n, List.mem_cons_self n notes, hc⟩
        · rw [if_neg hc] at h1
          exact Or.inl h1
      · obtain ⟨m, hm, hcond⟩ := h1
        exact Or.inr ⟨m, List.mem_cons_of_mem n hm, hcond⟩
    · rintro (h1 | h1)
      · left
        by_cases hc : npSliceBound nWin (noteStartIdx rate n) ≤ w ∧
            w < npSliceBound nWin (noteEndIdx rate n) ∧ h = hand ∧
            (p : ℤ) = (n.pitch - 21) % 88
        · rw [if_pos hc]
        · rw [if_neg hc]
          exact h1
      · obtain ⟨m, hm, hcond⟩ := h1
        rcases List.mem_cons.mp hm with rfl | hm'
        · left
          rw [if_pos hcond]
        · exact Or.inr ⟨m, hm', hcond⟩

/-- The sample loop of `next_batch` keeps the `Dataset` state fixed and
appends one sample per iteration. -/
lemma nextBatch_loop (rng : ℕ → ℕ) (l : List ℕ) (st : Dataset)
    (acc : List (List (ℕ → Bool) × (ℕ → Label))) :
    l.foldl (fun p s => (p.1, p.2 ++ [mkSample p.1 rng s])) (st, acc) =
      (st, acc ++ l.map (fun s => mkSample st rng s)) := by
  induction l generalizing acc with
  | nil => simp
  | cons a l ih => simp [ih]

/-- The sample loop of `next_batch` never writes to the `Dataset`. -/
lemma nextBatchSt_snd (ds : Dataset) (n_samples : ℕ) (rng : ℕ → ℕ) :
    (nextBatchSt ds n_samples rng).2 = ds := by
  unfold nextBatchSt
  split
  · rfl
  · simp only [nextBatch_loop]

/-- On a nonempty draw range, `next_batch` returns the per-sample list. -/
lemma nextBatch_ok (ds : Dataset) (n_samples : ℕ) (rng : ℕ → ℕ)
    (h : 0 < rangeSize ds) :
    nextBatch ds n_samples rng = .ok ((List.range n_samples).map (mkSample ds rng)) := by
  unfold nextBatch nextBatchSt
  rw [if_neg (by omega)]
  simp only [nextBatch_loop, List.nil_append]

/-- On an empty draw range, `next_batch` raises at the first draw. -/
lemma nextBatch_err (ds : Dataset) (n_samples : ℕ) (rng : ℕ → ℕ)
    (h : rangeSize ds ≤ 0) (hn : 0 < n_samples) :
    nextBatch ds n_samples rng = .error .valueError := by
  unfold nextBatch nextBatchSt
  rw [if_pos ⟨hn, h⟩]

lemma drawStart_lt (ds : Dataset) (rng : ℕ → ℕ) (s : ℕ)
    (h : ds.n_windows_past < ds.dataLen) :
    drawStart ds rng s < ds.dataLen - ds.n_windows_past := by
  unfold drawStart pyRandrange rangeSize
  have h1 : ((ds.dataLen : ℤ) - ds.n_windows_past).toNat = ds.dataLen - ds.n_windows_past := by
    omega
  rw [h1]
  exact Nat.mod_lt _ (by omega)

lemma pySlice_of_le {α : Type} (len : ℕ) (a : ℕ → α) (start stop : ℕ)
    (h1 : start ≤ stop) (h2 : stop ≤ len) :
    pySlice len a start stop = (List.range' start (stop - start)).map a := by
  unfold pySlice
  rw [min_eq_left (le_trans h1 h2), min_eq_left h2]

lemma range'_map_getLastD {α : Type} (f : ℕ → α) :
    ∀ (k a : ℕ) (d : α), ((List.range' a (k + 1)).map f).getLastD d = f (a + k) := by
  intro k
  induction k with
  | zero => intro a d; rfl
  | succ k ih =>
    intro a d
    have h1 : List.range' a (k + 1 + 1) = a :: List.range' (a + 1) (k + 1) := rfl
    rw [h1, List.map_cons, List.getLastD_cons, ih (a + 1) (f a)]
    congr 1
    omega

/-- Under the in-range start produced by the draw, the context slice is the
`n_windows_past + 1` rows starting at `start`. -/
lemma sampleSlice_eq (ds : Dataset) (start : ℕ)
    (h : start < ds.dataLen - ds.n_windows_past) (h2 : ds.n_windows_past < ds.dataLen) :
    sampleSlice ds start = (List.range' start (ds.n_windows_past + 1)).map ds.data := by
  unfold sampleSlice
  rw [pySlice_of_le ds.dataLen ds.data start (start + ds.n_windows_past + 1)
    (by omega) (by omega)]
  have h3 : start + ds.n_windows_past + 1 - start = ds.n_windows_past + 1 := by omega
  rw [h3]

lemma lastWindow_sampleSlice (ds : Dataset) (start : ℕ)
    (h : start < ds.dataLen - ds.n_windows_past) (h2 : ds.n_windows_past < ds.dataLen) :
    lastWindow (sampleSlice ds start) = ds.data (start + ds.n_windows_past) := by
  rw [sampleSlice_eq ds start h h2]
  unfold lastWindow
  exact range'_map_getLastD ds.data ds.n_windows_past start (fun _ _ => false)

lemma getD_range_map {α : Type} (f : ℕ → α) (n s : ℕ) (d : α) (h : s < n) :
    ((List.range n).map f).getD s d = f s := by
  simp [List.getD_eq_getElem?_getD, List.getElem?_map, List.getElem?_range, h]

lemma batch_getD (ds : Dataset) (n_samples : ℕ) (rng : ℕ → ℕ) (s : ℕ)
    (h : 0 < rangeSize ds) (hs : s < n_samples)
    (b : List (List (ℕ → Bool) × (ℕ → Label)))
    (hb : nextBatch ds n_samples rng = .ok b) :
    b.getD s emptySample = mkSample ds rng s := by
  rw [nextBatch_ok ds n_samples rng h] at hb
  have hb' : ((List.range n_samples).map (mkSample ds rng)) = b := by
    cases hb
    rfl
  rw [← hb']
  exact getD_range_map (mkSample ds rng) n_samples s emptySample hs

lemma rangeSize_pos (ds : Dataset) (h : ds.n_windows_past < ds.dataLen) :
    0 < rangeSize ds := by
  unfold rangeSize
  omega

/-- The merged input rows of a sample, window by window. -/
lemma sampleX_eq (ds : Dataset) (start : ℕ)
    (h : start < ds.dataLen - ds.n_windows_past) (h2 : ds.n_windows_past < ds.dataLen) :
    sampleX (sampleSlice ds start) =
      (List.range' start (ds.n_windows_past + 1)).map
        (fun w p => ds.data w 0 p || ds.data w 1 p) := by
  rw [sampleSlice_eq ds start h h2]
  unfold sampleX
  rw [List.map_map]
  rfl

/-- C9: `next_batch` leaves the `Dataset` state unchanged: the padded
concatenated tensor `self.data` (with its window count) and
`n_windows_past` are identical before and after the call; the loop only
reads the state and builds local arrays. -/
theorem C9_no_mutation (ds : Dataset) (n_samples : ℕ) (rng : ℕ → ℕ) :
    (nextBatchSt ds n_samples rng).2 = ds ∧
    (nextBatchSt ds n_samples rng).2.data = ds.data ∧
    (nextBatchSt ds n_samples rng).2.n_windows_past = ds.n_windows_past ∧
    (nextBatchSt ds n_samples rng).2.dataLen = ds.dataLen := by
  refine ⟨nextBatchSt_snd ds n_samples rng, ?_, ?_, ?_⟩ <;>
    rw [nextBatchSt_snd ds n_samples rng]

/-- C5 counterexample: at a degenerate construction (padded length 0,
`n_windows_past = 0`) the failure raised at batch time is Python's builtin
`ValueError` from `random.randrange`; the code defines no `ShapeError`
class at all, contradicting the claim that a `ShapeError` is raised. -/
theorem C5_counterexample :
    nextBatch ⟨0, 0, fun _ _ _ => false⟩ 1 (fun _ => 0) = .error PyError.valueError :=
  nextBatch_err ⟨0, 0, fun _ _ _ => false⟩ 1 (fun _ => 0) (by decide) (by decide)

/-- C5 (amended): for any positive number of samples, `next_batch` fails
if and only if the valid start range is empty, i.e. `n_windows_past` is at
least the padded tensor length; the failure is raised at batch time by the
first draw, and the exception is Python's builtin `ValueError` from
`random.randrange` on an empty range, not a distinct `ShapeError` class
(none exists in the code). -/
theorem C5_error_iff (ds : Dataset) (n_samples : ℕ) (rng : ℕ → ℕ)
    (hn : 0 < n_samples) :
    ((∃ e, nextBatch ds n_samples rng = .error e) ↔ ds.dataLen ≤ ds.n_windows_past) ∧
    (ds.dataLen ≤ ds.n_windows_past →
      nextBatch ds n_samples rng = .error PyError.valueError) := by
  have hiff : rangeSize ds ≤ 0 ↔ ds.dataLen ≤ ds.n_windows_past := by
    unfold rangeSize
    omega
  constructor
  · constructor
    · rintro ⟨e, he⟩
      by_contra hlt
      rw [nextBatch_ok ds n_samples rng (by unfold rangeSize; omega)] at he
      cases he
    · intro hle
      exact ⟨PyError.valueError, nextBatch_err ds n_samples rng (hiff.mpr hle) hn⟩
  · intro hle
    exact nextBatch_err ds n_samples rng (hiff.mpr hle) hn

/-- C5 witness: a degenerate `Dataset` of padded length 0 with
`n_windows_past = 0` makes `next_batch` raise at batch time. -/
theorem C5_error_iff_witness :
    0 < 1 ∧ nextBatch ⟨0, 0, fun _ _ _ => false⟩ 1 (fun _ => 0) = .error PyError.valueError :=
  ⟨by decide,
    (C5_error_iff ⟨0, 0, fun _ _ _ => false⟩ 1 (fun _ => 0) (by decide)).2 (by decide)⟩

/-- C3: each draw of `next_batch` lies in `[0, data_length − n_windows_past)`;
every value of that range is attainable and, over one full period of the
raw random stream, each value is drawn equally often (uniformity); the
valid start range has size `data_length − n_windows_past`; every returned
input slice has exactly `n_windows_past + 1` windows; and every window
read lies inside the padded tensor bounds. -/
theorem C3_draw_range (ds : Dataset) (n_samples : ℕ) (rng : ℕ → ℕ)
    (h : ds.n_windows_past < ds.dataLen) :
    (∀ s, drawStart ds rng s < ds.dataLen - ds.n_windows_past) ∧
    (∀ v, v < ds.dataLen - ds.n_windows_past →
      ∃ u, pyRandrange (rangeSize ds).toNat u = v) ∧
    (∀ v, v < ds.dataLen - ds.n_windows_past →
      ((Finset.range (ds.dataLen - ds.n_windows_past)).filter
        (fun u => pyRandrange (rangeSize ds).toNat u = v)).card = 1) ∧
    (Finset.range (ds.dataLen - ds.n_windows_past)).card
      = ds.dataLen - ds.n_windows_past ∧
    (∀ b, nextBatch ds n_samples rng = .ok b →
      ∀ s, s < n_samples → (b.getD s emptySample).1.length = ds.n_windows_past + 1) ∧
    (∀ s i, i ≤ ds.n_windows_past → drawStart ds rng s + i < ds.dataLen) := by
  have htn : (rangeSize ds).toNat = ds.dataLen - ds.n_windows_past := by
    unfold rangeSize
    omega
  refine ⟨fun s => drawStart_lt ds rng s h, ?_, ?_, Finset.card_range _, ?_, ?_⟩
  · intro v hv
    exact ⟨v, by unfold pyRandrange; rw [htn]; exact Nat.mod_eq_of_lt hv⟩
  · intro v hv
    have hset : (Finset.range (ds.dataLen - ds.n_windows_past)).filter
        (fun u => pyRandrange (rangeSize ds).toNat u = v) = {v} := by
      apply Finset.ext
      intro u
      simp only [Finset.mem_filter, Finset.mem_range, Finset.mem_singleton]
      unfold pyRandrange
      rw [htn]
      constructor
      · rintro ⟨hu, hmod⟩
        rw [Nat.mod_eq_of_lt hu] at hmod
        exact hmod
      · rintro rfl
        exact ⟨hv, Nat.mod_eq_of_lt hv⟩
    rw [hset]
    exact Finset.card_singleton v
  · intro b hb s hs
    rw [batch_getD ds n_samples rng s (rangeSize_pos ds h) hs b hb]
    show (sampleX (sampleSlice ds (drawStart ds rng s))).length = ds.n_windows_past + 1
    rw [sampleX_eq ds (drawStart ds rng s) (drawStart_lt ds rng s h) h]
    simp [List.length_range']
  · intro s i hi
    have := drawStart_lt ds rng s h
    omega

/-- C3 witness: over a padded tensor of length 10 with `n_windows_past = 3`
the drawn start index stays below `10 − 3 = 7` (so within `[0, 7]`), and
the returned slice has exactly 4 windows. -/
theorem C3_draw_range_witness :
    3 < 10 ∧ drawStart ⟨3, 10, fun _ _ _ => false⟩ (fun s => 5 * s + 6) 1 < 10 - 3 ∧
    ((((List.range 2).map (mkSample ⟨3, 10, fun _ _ _ => false⟩
        (fun s => 5 * s + 6))).getD 1 emptySample).1.length = 3 + 1) :=
  ⟨by decide,
    (C3_draw_range ⟨3, 10, fun _ _ _ => false⟩ 2 (fun s => 5 * s + 6) (by decide)).1 1,
    (C3_draw_range ⟨3, 10, fun _ _ _ => false⟩ 2 (fun s => 5 * s + 6) (by decide)).2.2.2.2.1
      ((List.range 2).map (mkSample ⟨3, 10, fun _ _ _ => false⟩ (fun s => 5 * s + 6)))
      (nextBatch_ok ⟨3, 10, fun _ _ _ => false⟩ 2 (fun s => 5 * s + 6) (by decide))
      1 (by decide)⟩

/-- C1: in every batch returned by `next_batch`, the label of sample `s`
at key `p` is derived from the last window of that sample's slice:
`-1` if only hand 0 is active, `+1` if only hand 1 is active, exactly `0`
(not `-1`, `+1` or `nan`) if both hands are active — the final both-hands
mask overrides the single-hand assignments — and `nan` if neither hand is
active. -/
theorem C1_label_rule (ds : Dataset) (n_samples : ℕ) (rng : ℕ → ℕ) (s p : ℕ)
    (hs : s < n_samples) (hp : p < 88) (hrange : ds.n_windows_past < ds.dataLen)
    (b : List (List (ℕ → Bool) × (ℕ → Label)))
    (hb : nextBatch ds n_samples rng = .ok b) :
    ((ds.data (drawStart ds rng s + ds.n_windows_past) 0 p = true ∧
      ds.data (drawStart ds rng s + ds.n_windows_past) 1 p = false) →
        (b.getD s emptySample).2 p = Label.val (-1)) ∧
    ((ds.data (drawStart ds rng s + ds.n_windows_past) 0 p = false ∧
      ds.data (drawStart ds rng s + ds.n_windows_past) 1 p = true) →
        (b.getD s emptySample).2 p = Label.val 1) ∧
    ((ds.data (drawStart ds rng s + ds.n_windows_past) 0 p = true ∧
      ds.data (drawStart ds rng s + ds.n_windows_past) 1 p = true) →
        (b.getD s emptySample).2 p = Label.val 0) ∧
    ((ds.data (drawStart ds rng s + ds.n_windows_past) 0 p = false ∧
      ds.data (drawStart ds rng s + ds.n_windows_past) 1 p = false) →
        (b.getD s emptySample).2 p = Label.nan) := by
  rw [batch_getD ds n_samples rng s (rangeSize_pos ds hrange) hs b hb]
  have hy : (mkSample ds rng s).2 p = sampleY (sampleSlice ds (drawStart ds rng s)) p := rfl
  rw [hy]
  unfold sampleY
  rw [lastWindow_sampleSlice ds (drawStart ds rng s) (drawStart_lt ds rng s hrange) hrange]
  refine ⟨?_, ?_, ?_, ?_⟩ <;> rintro ⟨h0, h1⟩ <;> rw [h0, h1] <;> rfl

/-- C1 witness: a dataset whose window 1 has only hand 0 active at key 39
yields label `-1` there. -/
theorem C1_label_rule_witness :
    ((⟨1, 4, fun w h p => w == 1 && h == 0 && p == 39⟩ : Dataset).data
        (drawStart ⟨1, 4, fun w h p => w == 1 && h == 0 && p == 39⟩ (fun _ => 0) 0 + 1) 0 39 = true) ∧
    ((((List.range 1).map (mkSample ⟨1, 4, fun w h p => w == 1 && h == 0 && p == 39⟩
        (fun _ => 0))).getD 0 emptySample).2 39 = Label.val (-1)) :=
  ⟨by decide,
    (C1_label_rule ⟨1, 4, fun w h p => w == 1 && h == 0 && p == 39⟩ 1 (fun _ => 0) 0 39
      (by decide) (by decide) (by decide)
      ((List.range 1).map (mkSample ⟨1, 4, fun w h p => w == 1 && h == 0 && p == 39⟩
        (fun _ => 0)))
      (nextBatch_ok ⟨1, 4, fun w h p => w == 1 && h == 0 && p == 39⟩ 1 (fun _ => 0)
        (by decide))).1 ⟨by decide, by decide⟩⟩

/-- C10: in every batch returned by `next_batch`, the label of sample `s`
at key `p` is `nan` exactly when the merged input at the slice's last
window is false, and is a numeric value exactly when that merged input is
true. -/
theorem C10_nan_iff_silent (ds : Dataset) (n_samples : ℕ) (rng : ℕ → ℕ) (s p : ℕ)
    (hs : s < n_samples) (hp : p < 88) (hrange : ds.n_windows_past < ds.dataLen)
    (b : List (List (ℕ → Bool) × (ℕ → Label)))
    (hb : nextBatch ds n_samples rng = .ok b) :
    ((b.getD s emptySample).2 p = Label.nan ↔
      (b.getD s emptySample).1.getLastD (fun _ => false) p = false) ∧
    ((b.getD s emptySample).2 p ≠ Label.nan ↔
      (b.getD s emptySample).1.getLastD (fun _ => false) p = true) := by
  rw [batch_getD ds n_samples rng s (rangeSize_pos ds hrange) hs b hb]
  have hy : (mkSample ds rng s).2 p = sampleY (sampleSlice ds (drawStart ds rng s)) p := rfl
  have hx : (mkSample ds rng s).1 = sampleX (sampleSlice ds (drawStart ds rng s)) := rfl
  rw [hy, hx]
  unfold sampleY
  rw [lastWindow_sampleSlice ds (drawStart ds rng s) (drawStart_lt ds rng s hrange) hrange,
    sampleX_eq ds (drawStart ds rng s) (drawStart_lt ds rng s hrange) hrange]
  rw [show ((List.range' (drawStart ds rng s) (ds.n_windows_past + 1)).map
      (fun w p => ds.data w 0 p || ds.data w 1 p)).getLastD (fun _ => false) =
      (fun p => ds.data (drawStart ds rng s + ds.n_windows_past) 0 p ||
        ds.data (drawStart ds rng s + ds.n_windows_past) 1 p) from
    range'_map_getLastD _ ds.n_windows_past (drawStart ds rng s) (fun _ => false)]
  cases h0 : ds.data (drawStart ds rng s + ds.n_windows_past) 0 p <;>
    cases h1 : ds.data (drawStart ds rng s + ds.n_windows_past) 1 p <;>
      simp [h0, h1]

/-- C10 witness: where neither hand is active in the last window the label
is `nan` exactly as the merged input is false. -/
theorem C10_nan_iff_silent_witness :
    ((((List.range 1).map (mkSample ⟨1, 4, fun w h p => w == 1 && h == 0 && p == 39⟩
        (fun _ => 0))).getD 0 emptySample).2 40 = Label.nan ↔
      (((List.range 1).map (mkSample ⟨1, 4, fun w h p => w == 1 && h == 0 && p == 39⟩
        (fun _ => 0))).getD 0 emptySample).1.getLastD (fun _ => false) 40 = false) :=
  (C10_nan_iff_silent ⟨1, 4, fun w h p => w == 1 && h == 0 && p == 39⟩ 1 (fun _ => 0) 0 40
    (by decide) (by decide) (by decide)
    ((List.range 1).map (mkSample ⟨1, 4, fun w h p => w == 1 && h == 0 && p == 39⟩
      (fun _ => 0)))
    (nextBatch_ok ⟨1, 4, fun w h p => w == 1 && h == 0 && p == 39⟩ 1 (fun _ => 0)
      (by decide))).1

lemma encode_nWindows (instruments : List Track) (ms : ℚ) :
    (encodePianoroll instruments ms).nWindows
      = (⌈trackEndTime instruments * samplesPerSec ms⌉).toNat := rfl

lemma encode_cell (instruments : List Track) (ms : ℚ) :
    (encodePianoroll instruments ms).cell
      = fillHand (samplesPerSec ms) (encodePianoroll instruments ms).nWindows 1
          ((instruments.drop 1).headD [])
          (fillHand (samplesPerSec ms) (encodePianoroll instruments ms).nWindows 0
            (instruments.headD []) (fun _ _ _ => false)) := rfl

lemma samplesPerSec_pos (ms : ℚ) (hms : 0 < ms) : 0 < samplesPerSec ms :=
  div_pos (by norm_num) hms

/-- For a note of positive length, valid start time and valid key index,
the effective numpy slice of its write is exactly the float window
interval of the claim. -/
lemma writeCond_iff (ms : ℚ) (instruments : List Track) (n : Note) (w p : ℕ)
    (hms : 0 < ms) (hstart : 0 ≤ n.start) (hstop : n.start < n.stop)
    (hpl : 0 ≤ n.pitch - 21) (hpu : n.pitch - 21 < 88)
    (hend : n.stop ≤ trackEndTime instruments) :
    ((npSliceBound (encodePianoroll instruments ms).nWindows
        (noteStartIdx (samplesPerSec ms) n) ≤ w ∧
      w < npSliceBound (encodePianoroll instruments ms).nWindows
        (noteEndIdx (samplesPerSec ms) n) ∧
      (p : ℤ) = (n.pitch - 21) % 88) ↔
      (n.pitch - 21 = (p : ℤ) ∧ noteStartIdx (samplesPerSec ms) n ≤ (w : ℤ) ∧
        (w : ℤ) < noteEndIdx (samplesPerSec ms) n)) := by
  have hrate : 0 < samplesPerSec ms := samplesPerSec_pos ms hms
  have hs0 : 0 ≤ noteStartIdx (samplesPerSec ms) n :=
    Int.floor_nonneg.mpr (mul_nonneg hstart hrate.le)
  have he0 : 0 ≤ noteEndIdx (samplesPerSec ms) n :=
    Int.ceil_nonneg (mul_nonneg (le_trans hstart hstop.le) hrate.le)
  have hmono : noteEndIdx (samplesPerSec ms) n ≤ ⌈trackEndTime instruments * samplesPerSec ms⌉ :=
    Int.ceil_mono (mul_le_mul_of_nonneg_right hend hrate.le)
  have hcast : ((encodePianoroll instruments ms).nWindows : ℤ)
      = ⌈trackEndTime instruments * samplesPerSec ms⌉ := by
    rw [encode_nWindows]
    exact Int.toNat_of_nonneg (le_trans he0 hmono)
  have hblen : noteEndIdx (samplesPerSec ms) n ≤ ((encodePianoroll instruments ms).nWindows : ℤ) := by
    rw [hcast]
    exact hmono
  have hmod : (n.pitch - 21) % 88 = n.pitch - 21 := Int.emod_eq_of_lt hpl hpu
  rw [← and_assoc, npSliceBound_pair_iff hs0 he0 hblen w, hmod]
  constructor
  · rintro ⟨⟨h1, h2⟩, h3⟩
    exact ⟨h3.symm, h1, h2⟩
  · rintro ⟨h1, h2, h3⟩
    exact ⟨⟨h2, h3⟩, h1.symm⟩

/-- C2: for a valid two-hand track pair and positive `ms_window`, the
encoded tensor cell `[w, h, offset]` is true iff some note of hand `h`
with key offset `offset` satisfies
`floor(note.start * rate) ≤ w < ceil(note.end * rate)`; all other cells of
that hand and key are false. -/
theorem C2_cell_iff (t0 t1 : Track) (ms : ℚ) (hms : 0 < ms)
    (hval : ∀ n ∈ t0 ++ t1, 0 ≤ n.start ∧ n.start < n.stop ∧
      0 ≤ n.pitch - 21 ∧ n.pitch - 21 < 88)
    (w h p : ℕ) (hh : h < 2) (hp : p < 88) :
    (encodePianoroll [t0, t1] ms).cell w h p = true ↔
      ∃ n ∈ (if h = 0 then t0 else t1), n.pitch - 21 = (p : ℤ) ∧
        noteStartIdx (samplesPerSec ms) n ≤ (w : ℤ) ∧
        (w : ℤ) < noteEndIdx (samplesPerSec ms) n := by
  rw [encode_cell]
  rw [fillHand_cell, fillHand_cell]
  have hhead : ([t0, t1].headD [] : Track) = t0 := rfl
  have htail : (([t0, t1].drop 1).headD [] : Track) = t1 := rfl
  rw [hhead, htail]
  have hcond : ∀ n hand, n ∈ (if hand = 0 then t0 else t1) → (hand = 0 ∨ hand = 1) →
      ((npSliceBound (encodePianoroll [t0, t1] ms).nWindows
          (noteStartIdx (samplesPerSec ms) n) ≤ w ∧
        w < npSliceBound (encodePianoroll [t0, t1] ms).nWindows
          (noteEndIdx (samplesPerSec ms) n) ∧
        (p : ℤ) = (n.pitch - 21) % 88) ↔
        (n.pitch - 21 = (p : ℤ) ∧ noteStartIdx (samplesPerSec ms) n ≤ (w : ℤ) ∧
          (w : ℤ) < noteEndIdx (samplesPerSec ms) n)) := by
    intro n hand hmem hhand
    have hmem' : n ∈ t0 ++ t1 := by
      rcases hhand with rfl | rfl
      · simp only [if_pos rfl] at hmem
        exact List.mem_append_left t1 hmem
      · simp only [if_neg one_ne_zero] at hmem
        exact List.mem_append_right t0 hmem
    obtain ⟨ha, hb, hc, hd⟩ := hval n hmem'
    have hend : n.stop ≤ trackEndTime [t0, t1] := by
      rcases hhand with rfl | rfl
      · simp only [if_pos rfl] at hmem
        exact stop_le_trackEndTime (List.mem_cons_self t0 [t1]) hmem
      · simp only [if_neg one_ne_zero] at hmem
        exact stop_le_trackEndTime
          (List.mem_cons_of_mem t0 (List.mem_cons_self t1 [])) hmem
    exact writeCond_iff ms [t0, t1] n w p hms ha hb hc hd hend
  have h01 : h = 0 ∨ h = 1 := by omega
  rcases h01 with rfl | rfl
  · constructor
    · rintro ((hfalse | ⟨n, hn, hcond0⟩) | ⟨n, hn, hcond1⟩)
      · cases hfalse
      · refine ⟨n, by simpa using hn, ?_⟩
        exact (hcond n 0 (by simpa using hn) (Or.inl rfl)).mp ⟨hcond0.1, hcond0.2.1, hcond0.2.2.2⟩
      · exact absurd hcond1.2.2.1 (by omega)
    · rintro ⟨n, hn, hgood⟩
      refine Or.inl (Or.inr ⟨n, by simpa using hn, ?_⟩)
      have := (hcond n 0 (by simpa using hn) (Or.inl rfl)).mpr hgood
      exact ⟨this.1, this.2.1, rfl, this.2.2⟩
  · constructor
    · rintro ((hfalse | ⟨n, hn, hcond0⟩) | ⟨n, hn, hcond1⟩)
      · cases hfalse
      · exact absurd hcond0.2.2.1 (by omega)
      · refine ⟨n, by simpa using hn, ?_⟩
        exact (hcond n 1 (by simpa using hn) (Or.inr rfl)).mp ⟨hcond1.1, hcond1.2.1, hcond1.2.2.2⟩
    · rintro ⟨n, hn, hgood⟩
      refine Or.inr ⟨n, by simpa using hn, ?_⟩
      have := (hcond n 1 (by simpa using hn) (Or.inr rfl)).mpr hgood
      exact ⟨this.1, this.2.1, rfl, this.2.2⟩

/-- C2 witness: a hand-0 note of pitch 60 from 0 s to 0.05 s at
`ms_window = 20` (rate 50/s) sets cells `[0:3, 0, 39]`, so window 2 is true
and window 3 is false. -/
theorem C2_cell_iff_witness :
    ((0:ℚ) < 20) ∧
    (encodePianoroll [[⟨0, 1/20, 60⟩], []] 20).cell 2 0 39 = true ∧
    (encodePianoroll [[⟨0, 1/20, 60⟩], []] 20).cell 3 0 39 = false := by
  have hval : ∀ n ∈ ([⟨0, 1/20, 60⟩] : Track) ++ ([] : Track), 0 ≤ n.start ∧
      n.start < n.stop ∧ 0 ≤ n.pitch - 21 ∧ n.pitch - 21 < 88 := by
    intro n hn
    simp only [List.append_nil, List.mem_singleton] at hn
    subst hn
    exact ⟨le_refl 0, by norm_num, by norm_num, by norm_num⟩
  have hstart : noteStartIdx (samplesPerSec 20) ⟨0, 1/20, 60⟩ = 0 := by
    unfold noteStartIdx samplesPerSec
    norm_num
  have hend3 : noteEndIdx (samplesPerSec 20) ⟨0, 1/20, 60⟩ = 3 := by
    unfold noteEndIdx samplesPerSec
    rw [show ((⟨0, 1/20, 60⟩ : Note).stop * (1000 / 20) : ℚ) = 5 / 2 by norm_num]
    rw [Int.ceil_eq_iff]
    norm_num
  refine ⟨by norm_num, ?_, ?_⟩
  · refine (C2_cell_iff [⟨0, 1/20, 60⟩] [] 20 (by norm_num) hval 2 0 39
      (by decide) (by decide)).mpr ⟨⟨0, 1/20, 60⟩, by simp, by norm_num, ?_, ?_⟩
    · rw [hstart]
      decide
    · rw [hend3]
      decide
  · cases hc : (encodePianoroll [[⟨0, 1/20, 60⟩], []] 20).cell 3 0 39
    · rfl
    · exfalso
      obtain ⟨n, hn, hpitch, hs, he⟩ :=
        (C2_cell_iff [⟨0, 1/20, 60⟩] [] 20 (by norm_num) hval 3 0 39
          (by decide) (by decide)).mp hc
      have hn2 : n = ⟨0, 1/20, 60⟩ := List.eq_of_mem_singleton (by simpa using hn)
      subst hn2
      rw [hend3] at he
      omega

/-- C6: the encoded tensor has exactly
`n_windows = ceil(track_end_time * samples_per_sec)` windows, where
`track_end_time` is the maximum end time over the hands; every note's
window interval lies within `[0, n_windows]`, so no write falls outside
the tensor, and all windows at or past `n_windows` are false. -/
theorem C6_tensor_length (instruments : List Track) (ms : ℚ) (hms : 0 < ms)
    (hstart : ∀ t ∈ instruments, ∀ n ∈ t, 0 ≤ n.start) :
    (((encodePianoroll instruments ms).nWindows : ℤ)
        = ⌈trackEndTime instruments * samplesPerSec ms⌉) ∧
    (∀ t ∈ instruments, ∀ n ∈ t,
      0 ≤ noteStartIdx (samplesPerSec ms) n ∧
      noteEndIdx (samplesPerSec ms) n ≤ ((encodePianoroll instruments ms).nWindows : ℤ)) ∧
    (∀ w h p, (encodePianoroll instruments ms).nWindows ≤ w →
      (encodePianoroll instruments ms).cell w h p = false) := by
  have hrate : 0 < samplesPerSec ms := samplesPerSec_pos ms hms
  have hceil0 : 0 ≤ ⌈trackEndTime instruments * samplesPerSec ms⌉ :=
    Int.ceil_nonneg (mul_nonneg (trackEndTime_nonneg instruments) hrate.le)
  have hcast : ((encodePianoroll instruments ms).nWindows : ℤ)
      = ⌈trackEndTime instruments * samplesPerSec ms⌉ := by
    rw [encode_nWindows]
    exact Int.toNat_of_nonneg hceil0
  refine ⟨hcast, ?_, ?_⟩
  · intro t ht n hn
    constructor
    · exact Int.floor_nonneg.mpr (mul_nonneg (hstart t ht n hn) hrate.le)
    · rw [hcast]
      exact Int.ceil_mono (mul_le_mul_of_nonneg_right (stop_le_trackEndTime ht hn) hrate.le)
  · intro w h p hw
    cases hc : (encodePianoroll instruments ms).cell w h p
    · rfl
    · exfalso
      rw [encode_cell, fillHand_cell, fillHand_cell] at hc
      rcases hc with (hfalse | ⟨n, _, _, hlt, _⟩) | ⟨n, _, _, hlt, _⟩
      · cases hfalse
      · have := npSliceBound_le (encodePianoroll instruments ms).nWindows
          (noteEndIdx (samplesPerSec ms) n)
        omega
      · have := npSliceBound_le (encodePianoroll instruments ms).nWindows
          (noteEndIdx (samplesPerSec ms) n)
        omega

/-- C6 witness: a single hand-0 note ending at 1 s with `ms_window = 20`
gives a 50-window tensor whose window 50 is false everywhere. -/
theorem C6_tensor_length_witness :
    ((0:ℚ) < 20) ∧
    (((encodePianoroll [[⟨0, 1, 60⟩], []] 20).nWindows : ℤ)
      = ⌈trackEndTime [[⟨0, 1, 60⟩], []] * samplesPerSec 20⌉) ∧
    ((encodePianoroll [[⟨0, 1, 60⟩], []] 20).nWindows = 50) ∧
    (encodePianoroll [[⟨0, 1, 60⟩], []] 20).cell 50 0 39 = false := by
  have hstart : ∀ t ∈ ([[⟨0, 1, 60⟩], []] : List Track), ∀ n ∈ t, 0 ≤ n.start := by
    intro t ht n hn
    simp only [List.mem_cons, List.not_mem_nil, or_false] at ht
    rcases ht with rfl | rfl
    · simp only [List.mem_singleton] at hn
      subst hn
      exact le_refl 0
    · cases hn
  have htet : trackEndTime [[⟨0, 1, 60⟩], []] = 1 := by
    unfold trackEndTime
    simp only [List.map_cons, List.map_nil, List.flatten, List.append_nil, List.foldl]
    exact max_eq_right (by norm_num)
  have h50 : (encodePianoroll [[⟨0, 1, 60⟩], []] 20).nWindows = 50 := by
    rw [encode_nWindows, htet]
    rw [show (1 : ℚ) * samplesPerSec 20 = 50 by norm_num [samplesPerSec]]
    norm_num
    decide
  refine ⟨by norm_num,
    (C6_tensor_length [[⟨0, 1, 60⟩], []] 20 (by norm_num) hstart).1, h50, ?_⟩
  exact (C6_tensor_length [[⟨0, 1, 60⟩], []] 20 (by norm_num) hstart).2.2 50 0 39
    (le_of_eq h50)

/-- C8: encoding is deterministic — identical instrument lists and
`ms_window` produce identical tensors; the embedded encoder is a pure
function of its two arguments, with no other inputs or effects. -/
theorem C8_encode_deterministic (i1 i2 : List Track) (ms1 ms2 : ℚ)
    (h : i1 = i2) (hms : ms1 = ms2) :
    encodePianoroll i1 ms1 = encodePianoroll i2 ms2 := by
  rw [h, hms]

/-- C8 witness: two runs on the same concrete input coincide. -/
theorem C8_encode_deterministic_witness :
    ([[(⟨0, 1, 60⟩ : Note)], []] = [[(⟨0, 1, 60⟩ : Note)], []]) ∧
    encodePianoroll [[⟨0, 1, 60⟩], []] 20 = encodePianoroll [[⟨0, 1, 60⟩], []] 20 :=
  ⟨rfl, C8_encode_deterministic [[⟨0, 1, 60⟩], []] [[⟨0, 1, 60⟩], []] 20 20 rfl rfl⟩

/-- C7: `convert` re-encodes a file exactly when the overwrite flag is set
or no artifact exists under that file's `ms_window` key; when an artifact
exists and overwrite is not requested, encoding is skipped and the store
is left unchanged. -/
theorem C7_cache_policy (midi : String → List Track) (ms : ℚ) (overwrite : Bool)
    (fs : String → Option Pianoroll) (file : String) :
    ((convertStep midi ms overwrite fs file).1
        = (overwrite || (fs (npyKey file ms)).isNone)) ∧
    (overwrite = false → (fs (npyKey file ms)).isSome →
      (convertStep midi ms overwrite fs file).2 = .ok fs) := by
  constructor
  · cases overwrite with
    | true =>
      cases hcf : convertFile (midi file) ms <;> simp [convertStep, hcf]
    | false =>
      cases hfs : fs (npyKey file ms) with
      | none => cases hcf : convertFile (midi file) ms <;> simp [convertStep, hfs, hcf]
      | some pr => simp [convertStep, hfs]
  · intro hov hsome
    obtain ⟨pr, hpr⟩ := Option.isSome_iff_exists.mp hsome
    subst hov
    simp [convertStep, hpr]

/-- C7 witness: with `overwrite = false` and an artifact present under the
key, the store is returned unchanged. -/
theorem C7_cache_policy_witness :
    (false = false) ∧
    ((fun _ : String => some (⟨0, fun _ _ _ => false⟩ : Pianoroll)) (npyKey "a" 20)).isSome = true ∧
    (convertStep (fun _ => []) 20 false (fun _ => some ⟨0, fun _ _ _ => false⟩) "a").2
      = .ok (fun _ => some ⟨0, fun _ _ _ => false⟩) :=
  ⟨rfl, rfl,
    (C7_cache_policy (fun _ => []) 20 false (fun _ => some ⟨0, fun _ _ _ => false⟩) "a").2
      rfl rfl⟩

/-- C4 counterexample: a note with `end = start` (1 s to 1 s) is not
rejected — `convert` silently produces a tensor for it, contradicting the
claim that a note with `end ≤ start` raises a distinct `EncodingError`
subtype and that no tensor is produced. -/
theorem C4_counterexample :
    (convertFile [[⟨1, 1, 60⟩], []] 20).isOk = true := by
  have htet : trackEndTime [[⟨1, 1, 60⟩], []] = 1 := by
    unfold trackEndTime
    simp only [List.map_cons, List.map_nil, List.flatten, List.append_nil, List.foldl]
    exact max_eq_right (by norm_num)
  have hceil : ⌈trackEndTime [[(⟨1, 1, 60⟩ : Note)], []] * samplesPerSec 20⌉ = 50 := by
    rw [htet, show (1 : ℚ) * samplesPerSec 20 = 50 by norm_num [samplesPerSec]]
    norm_num
  unfold convertFile
  rw [if_neg (by norm_num), if_neg (by decide), if_neg (by rw [hceil]; decide),
    if_pos (by decide)]
  rfl

/-- C4 (amended): the encoder raises only built-in Python exceptions,
never an `EncodingError` subtype: `ms_window = 0` raises
`ZeroDivisionError`, fewer than two tracks raises `IndexError`, and a key
offset `pitch − 21` outside `[-88, 88)` raises `IndexError`; with two
tracks, positive `ms_window` and all key offsets in `[-88, 88)` encoding
always succeeds — in particular a note with `end ≤ start` or with a pitch
below the keyboard (offset in `[-88, 0)`) is accepted and a tensor is
silently produced. -/
theorem C4_amended (instruments : List Track) (ms : ℚ) :
    (ms = 0 → convertFile instruments ms = .error PyError.zeroDivisionError) ∧
    (ms ≠ 0 → instruments.length < 2 →
      convertFile instruments ms = .error PyError.indexError) ∧
    (0 < ms → 2 ≤ instruments.length →
      (instruments.take 2).all (fun t => t.all noteIndexOk) = true →
      convertFile instruments ms = .ok (encodePianoroll instruments ms)) ∧
    (ms ≠ 0 → 2 ≤ instruments.length →
      0 ≤ ⌈trackEndTime instruments * samplesPerSec ms⌉ →
      (instruments.take 2).all (fun t => t.all noteIndexOk) = false →
      convertFile instruments ms = .error PyError.indexError) := by
  refine ⟨?_, ?_, ?_, ?_⟩
  · intro h0
    unfold convertFile
    rw [if_pos h0]
  · intro h0 hlen
    unfold convertFile
    rw [if_neg h0, if_pos hlen]
  · intro h0 hlen hall
    have hceil : 0 ≤ ⌈trackEndTime instruments * samplesPerSec ms⌉ :=
      Int.ceil_nonneg (mul_nonneg (trackEndTime_nonneg instruments)
        (samplesPerSec_pos ms h0).le)
    unfold convertFile
    rw [if_neg (ne_of_gt h0), if_neg (by omega), if_neg (by omega), if_pos hall]
  · intro h0 hlen hceil hall
    unfold convertFile
    rw [if_neg h0, if_neg (by omega), if_neg (by omega), if_neg (by rw [hall]; decide)]

/-- C4 witness: at `ms_window = 20` a two-track input whose only note has
`end = start` satisfies the amended success case: encoding succeeds and
returns the (here all-false) tensor. -/
theorem C4_amended_witness :
    ((0:ℚ) < 20) ∧ 2 ≤ ([[(⟨1, 1, 60⟩ : Note)], []] : List Track).length ∧
    convertFile [[⟨1, 1, 60⟩], []] 20 = .ok (encodePianoroll [[⟨1, 1, 60⟩], []] 20) :=
  ⟨by norm_num, by decide,
    (C4_amended [[⟨1, 1, 60⟩], []] 20).2.2.1 (by norm_num) (by decide) (by decide)⟩

end Hannds
